import Mathlib

/-!
# Verification of the `p` prompt manager

A shallow embedding of the `p` command-line prompt manager (Go) and proofs
about its specification.  Go strings are modelled as `List Char`
(UTF-8 byte order on Go strings coincides with code-point order, so the
lexicographic order on `List Char` matches Go's string comparison and
SQLite's default BINARY collation).  Embedded functions follow the Go
source: `normalizeTags`, `toTagSet`, `validatePromptName`,
`validatePromptContent` and the `App` operations from `p.go`, the
`SQLitePromptStore` operations from the store file, and the Bubble Tea
editor loop from `tui_editor.go`.
-/

/-- A Go string, modelled as its list of Unicode code points. -/
abbrev GoStr := List Char

/-- Shorthand turning a Lean string literal into the `GoStr` model. -/
def gs (s : String) : GoStr := s.toList

/-- Go's `unicode.IsSpace`: the Unicode White_Space property
(Latin-1 fast path plus the White_Space table). -/
def isGoSpace (c : Char) : Bool :=
  let n := c.toNat
  (9 ≤ n && n ≤ 13) || n = 32 || n = 0x85 || n = 0xA0 || n = 0x1680 ||
    (0x2000 ≤ n && n ≤ 0x200A) || n = 0x2028 || n = 0x2029 || n = 0x202F ||
    n = 0x205F || n = 0x3000

/-- Remove the trailing run of white-space characters (the right half of
Go's `strings.TrimSpace`). -/
def trimRight : GoStr → GoStr
  | [] => []
  | a :: t =>
    let t' := trimRight t
    if t' = [] ∧ isGoSpace a then [] else a :: t'

/-- Go's `strings.TrimSpace`: drop white space from both ends. -/
def trimSpace (l : GoStr) : GoStr :=
  trimRight (l.dropWhile isGoSpace)

/-- Helper for `splitOnComma`: prepend a character to the first field. -/
def consHead (c : Char) : List GoStr → List GoStr
  | [] => [[c]]
  | t :: ts => (c :: t) :: ts

/-- Go's `strings.Split(s, ",")`: split around every comma; the empty
string yields one empty field. -/
def splitOnComma : GoStr → List GoStr
  | [] => [[]]
  | c :: rest =>
    if c = ',' then [] :: splitOnComma rest
    else consHead c (splitOnComma rest)

/-- Go's `strings.Join(ts, ",")`. -/
def joinComma : List GoStr → GoStr
  | [] => []
  | [t] => t
  | t :: t' :: ts => t ++ ',' :: joinComma (t' :: ts)

/-- The split-trim-drop-empties pass shared by `toTagSet` (p.go) and the
tag-set construction inside `ListPromptsByTags` (store): split on commas,
trim each token, keep the non-empty ones.  Duplicates are kept; only
membership is ever observed on this list. -/
def tagSetOf (s : GoStr) : List GoStr :=
  ((splitOnComma s).map trimSpace).filter (fun t => decide (t ≠ []))

/-- Model of `toTagSet` from p.go: the set of split, trimmed, non-empty tags.
Go builds a `map[string]struct{}`; the set is modelled as the
duplicate-free list of tokens. -/
def toTagSet (s : GoStr) : List GoStr :=
  (tagSetOf s).dedup

/-- Go's `sort.Strings`: sort ascending in byte order (= code-point
lexicographic order on `List Char`). -/
def sortTags (ts : List GoStr) : List GoStr :=
  List.insertionSort (· ≤ ·) ts

/-- Model of `normalizeTags` from p.go: deduplicate and sort comma-separated tags,
trimming whitespace; empty input is returned unchanged. -/
def normalizeTags (s : GoStr) : GoStr :=
  if s = [] then [] else joinComma (sortTags (toTagSet s))

-- A few concrete checks mirroring the repository's own unit tests.
example : normalizeTags (gs "b,a,c") = gs "a,b,c" := by decide
example : normalizeTags (gs "test,test,other") = gs "other,test" := by decide
example : normalizeTags (gs " a , b , c ") = gs "a,b,c" := by decide
example : normalizeTags (gs "a,,b,,,c") = gs "a,b,c" := by decide
example : normalizeTags (gs "") = gs "" := by decide
example : trimSpace (gs "   \n\t  ") = [] := by decide

/-! ## Validation (p.go) -/

/-- Go's `len` on a string: its UTF-8 byte count. -/
def goLen (l : GoStr) : Nat :=
  (l.map Char.utf8Size).sum

/-- The constant `MaxPromptNameLen` from p.go. -/
def MaxPromptNameLen : Nat := 255

/-- The constant `MaxPromptContentLen` from p.go. -/
def MaxPromptContentLen : Nat := 10000

/-- Model of `validatePromptName` from p.go: `true` means the `nil`-error path,
`false` either "cannot be empty" or "too long". -/
def validatePromptName (name : GoStr) : Bool :=
  if name = [] then false
  else if goLen name > MaxPromptNameLen then false
  else true

/-- Model of `validatePromptContent` from p.go: trim, then reject empty and
over-long content. -/
def validatePromptContent (content : GoStr) : Bool :=
  let trimmed := trimSpace content
  if goLen trimmed = 0 then false
  else if goLen trimmed > MaxPromptContentLen then false
  else true

/-! ## The record store (SQLitePromptStore)

The SQLite table is modelled as a list of rows; each store method embeds
the single SQL statement it executes.  I/O failures are out of scope. -/

/-- The `Prompt` record from the store file. -/
structure Prompt where
  id : Int
  name : GoStr
  prompt : GoStr
  tags : GoStr
deriving DecidableEq, Repr

/-- The next AUTOINCREMENT id of the `prompts` table. -/
def nextId (st : List Prompt) : Int :=
  (st.map (·.id)).foldr max 0 + 1

/-- Model of `SQLitePromptStore.AddPrompt`: `INSERT INTO prompts ...`.
`none` models the UNIQUE-constraint failure on `name`
(the "already exists" error). -/
def storeAddPrompt (st : List Prompt) (name prompt tags : GoStr) :
    Option (List Prompt) :=
  if ∃ p ∈ st, p.name = name then none
  else some (st ++ [⟨nextId st, name, prompt, tags⟩])

/-- Model of `SQLitePromptStore.UpdatePrompt`: `UPDATE prompts SET ... WHERE name = ?`.
`none` models the zero-rows-affected "not found" error. -/
def storeUpdatePrompt (st : List Prompt) (name newPrompt newTags : GoStr) :
    Option (List Prompt) :=
  if ∃ p ∈ st, p.name = name then
    some (st.map fun p =>
      if p.name = name then { p with prompt := newPrompt, tags := newTags } else p)
  else none

/-- Model of `SQLitePromptStore.DeletePrompt`: `DELETE FROM prompts WHERE name = ?`. -/
def storeDeletePrompt (st : List Prompt) (name : GoStr) :
    Option (List Prompt) :=
  if ∃ p ∈ st, p.name = name then
    some (st.filter fun p => decide (p.name ≠ name))
  else none

/-- Model of `SQLitePromptStore.ListPrompts`:
`SELECT id, name, prompt, tags FROM prompts ORDER BY name`.  SQLite's
default BINARY collation sorts TEXT in byte order, i.e. the lexicographic
order on `List Char`. -/
def storeListPrompts (st : List Prompt) : List Prompt :=
  List.insertionSort (fun p q => p.name ≤ q.name) st

/-- Does the filter string carry the recognized `AND:` marker
(`strings.HasPrefix(tagsFilter, "AND:")`)? -/
def andMarked : GoStr → Bool
  | 'A' :: 'N' :: 'D' :: ':' :: _ => true
  | _ => false

/-- The filter string with the `AND:` marker removed
(`strings.TrimPrefix`). -/
def stripAnd (f : GoStr) : GoStr :=
  if andMarked f then f.drop 4 else f

/-- Model of `SQLitePromptStore.ListPromptsByTags`: fetch all prompts, parse the
filter (OR by default, AND with the `AND:` marker), and filter in memory
by tag-set membership. -/
def storeListPromptsByTags (st : List Prompt) (tagsFilter : GoStr) :
    List Prompt :=
  let allPrompts := storeListPrompts st
  if tagsFilter = [] then allPrompts
  else
    let useAndLogic := andMarked tagsFilter
    let filterTags := tagSetOf (stripAnd tagsFilter)
    if filterTags = [] then allPrompts
    else
      allPrompts.filter fun p =>
        if p.tags = [] then false
        else
          let promptTagSet := tagSetOf p.tags
          if useAndLogic then filterTags.all fun t => decide (t ∈ promptTagSet)
          else filterTags.any fun t => decide (t ∈ promptTagSet)

/-! ## The application layer (p.go)

The editor interaction is I/O; each operation below takes the string the
editor session handed back as an argument.  Error returns are modelled by
outcome constructors; the store state is threaded explicitly. -/

/-- Outcome of `App.AddPrompt`. -/
inductive AddOutcome where
  | validationError
  | cancelled
  | added
  | conflict
deriving DecidableEq, Repr

/-- Model of `App.AddPrompt` from p.go, with `promptContent` the string returned by
the (terminal or external) editor: validate the name, treat an empty
editor result as "Operation cancelled" (a non-error no-op), validate the
content, normalize the tags, and insert. -/
def AppAddPrompt (st : List Prompt) (name tags promptContent : GoStr) :
    AddOutcome × List Prompt :=
  if validatePromptName name = false then (.validationError, st)
  else if promptContent = [] then (.cancelled, st)
  else if validatePromptContent promptContent = false then (.validationError, st)
  else
    match storeAddPrompt st name promptContent (normalizeTags tags) with
    | some st' => (.added, st')
    | none => (.conflict, st)

/-- Outcome of `App.EditPrompt`. -/
inductive EditOutcome where
  | validationError
  | noChanges
  | updated
  | notFound
deriving DecidableEq, Repr

/-- Model of `App.EditPrompt` from p.go: the caller has already fetched
`existingPrompt`; validate its name, detect the no-change case
("No changes detected"), validate the new content, and update the store
with the normalized tags. -/
def AppEditPrompt (st : List Prompt) (existingPrompt : Prompt)
    (newPrompt newTags : GoStr) : EditOutcome × List Prompt :=
  if validatePromptName existingPrompt.name = false then (.validationError, st)
  else
    let normalizedTags := normalizeTags newTags
    if newPrompt = existingPrompt.prompt ∧ normalizedTags = existingPrompt.tags then
      (.noChanges, st)
    else if validatePromptContent newPrompt = false then (.validationError, st)
    else
      match storeUpdatePrompt st existingPrompt.name newPrompt normalizedTags with
      | some st' => (.updated, st')
      | none => (.notFound, st)

/-- Model of `App.ListPrompts` from p.go: filter through the store when a tag
filter is given, else list everything. -/
def AppListPrompts (st : List Prompt) (tagsFilter : GoStr) : List Prompt :=
  if tagsFilter ≠ [] then storeListPromptsByTags st tagsFilter
  else storeListPrompts st

/-- One iteration of the import loop in `newImportCmd` (p.go): skip
records with empty name or content, otherwise insert the record's fields
as read from the JSON file; if the name already exists, update it
instead.  A failed update leaves the store unchanged (warning path). -/
def importOnePrompt (st : List Prompt) (pr : Prompt) : List Prompt :=
  if pr.name = [] ∨ pr.prompt = [] then st
  else
    match storeAddPrompt st pr.name pr.prompt pr.tags with
    | some st' => st'
    | none =>
      match storeUpdatePrompt st pr.name pr.prompt pr.tags with
      | some st' => st'
      | none => st

/-- The import loop of `newImportCmd` over the decoded file. -/
def importPrompts (st : List Prompt) (prs : List Prompt) : List Prompt :=
  prs.foldl importOnePrompt st

/-! ## The terminal editor (tui_editor.go)

`editorModel.Update` quits on Esc, Ctrl+C, Ctrl+D and Alt+Enter and
forwards every other key message to the bubbles textarea.  The textarea
is an external component observed only through `SetValue`/`Value`/
`Update`; it is modelled by its value together with an arbitrary update
function `taUpd` supplied as a parameter. -/

/-- A key message delivered to `editorModel.Update`.  `taKey n` stands
for any message that is not one of the four recognized terminators and is
forwarded to the textarea. -/
inductive EdKey where
  | esc
  | ctrlC
  | ctrlD
  | altEnter
  | taKey (n : Nat)
deriving DecidableEq, Repr

/-- Does this key hit one of the quit branches of `editorModel.Update`? -/
def isQuitKey : EdKey → Bool
  | .esc => true
  | .ctrlC => true
  | .ctrlD => true
  | .altEnter => true
  | .taKey _ => false

/-- The TUI editor model: the textarea's value and the `quitting` flag. -/
structure EditorModel where
  taValue : String
  quitting : Bool
deriving DecidableEq, Repr

/-- Model of `initialEditorModel`: a fresh textarea seeded with
`SetValue(initialContent)`. -/
def initialEditorModel (initialContent : String) : EditorModel :=
  ⟨initialContent, false⟩

/-- Model of `editorModel.Update`: on Esc/Ctrl+C/Ctrl+D/Alt+Enter set `quitting`
and quit (second component `true`); any other message is passed to the
textarea's own update. -/
def editorUpdate (taUpd : Nat → String → String) (m : EditorModel)
    (k : EdKey) : EditorModel × Bool :=
  match k with
  | .esc => ({ m with quitting := true }, true)
  | .ctrlC => ({ m with quitting := true }, true)
  | .ctrlD => ({ m with quitting := true }, true)
  | .altEnter => ({ m with quitting := true }, true)
  | .taKey n => ({ m with taValue := taUpd n m.taValue }, false)

/-- The Bubble Tea event loop on an injected key sequence: feed keys in
arrival order until an update quits; `none` means the injected sequence
never ends the session. -/
def runEditorKeys (taUpd : Nat → String → String) :
    EditorModel → List EdKey → Option EditorModel
  | _, [] => none
  | m, k :: ks =>
    let (m', quit) := editorUpdate taUpd m k
    if quit then some m' else runEditorKeys taUpd m' ks

/-- Model of `RunTUIEditor`: run the program from `initialEditorModel` and return
`m.ta.Value()` of the final model.  The Go function returns
`(string, error)` with the error reserved for terminal failures; there is
no separate cancellation value in its interface. -/
def runTUIEditor (taUpd : Nat → String → String) (initialContent : String)
    (keys : List EdKey) : Option String :=
  (runEditorKeys taUpd (initialEditorModel initialContent) keys).map (·.taValue)

/-! ## Helper lemmas: byte length -/

/-- Every code point occupies at least one UTF-8 byte, so the byte length
bounds the character count from below. -/
theorem length_le_goLen (l : GoStr) : l.length ≤ goLen l := by
  induction l with
  | nil => simp [goLen]
  | cons a t ih =>
    have ha := Char.utf8Size_pos a
    simp only [goLen, List.map_cons, List.sum_cons, List.length_cons] at *
    omega

/-- The byte length is zero exactly on the empty string. -/
theorem goLen_eq_zero_iff (l : GoStr) : goLen l = 0 ↔ l = [] := by
  cases l with
  | nil => simp [goLen]
  | cons a t =>
    have ha := Char.utf8Size_pos a
    simp only [goLen, List.map_cons, List.sum_cons]
    constructor
    · intro h; omega
    · intro h; cases h

/-! ## Helper lemmas: trimming -/

/-- The function `trimRight` is idempotent. -/
theorem trimRight_idem : ∀ l : GoStr, trimRight (trimRight l) = trimRight l := by
  intro l
  induction l with
  | nil => rfl
  | cons a t ih =>
    by_cases h : trimRight t = [] ∧ isGoSpace a
    · simp [trimRight, h]
    · rw [trimRight]
      simp only [if_neg h]
      rw [trimRight]
      simp only [ih, if_neg h]

/-- The function `trimRight` on a nonempty list either empties it or keeps the head. -/
theorem trimRight_cons (a : Char) (t : GoStr) :
    trimRight (a :: t) = [] ∨ trimRight (a :: t) = a :: trimRight t := by
  rw [trimRight]
  by_cases h : trimRight t = [] ∧ isGoSpace a
  · exact Or.inl (by simp [h])
  · exact Or.inr (by simp [h])

/-- Characters of the right-trimmed list come from the original. -/
theorem mem_trimRight {x : Char} : ∀ {l : GoStr}, x ∈ trimRight l → x ∈ l := by
  intro l
  induction l with
  | nil => exact fun h => h
  | cons a t ih =>
    intro hx
    rw [trimRight] at hx
    by_cases h : trimRight t = [] ∧ isGoSpace a
    · simp [h] at hx
    · simp only [if_neg h, List.mem_cons] at hx
      rcases hx with rfl | hx
      · exact List.mem_cons_self _ _
      · exact List.mem_cons_of_mem _ (ih hx)

/-- The function `dropWhile` either empties the list or exposes a head that fails the
predicate. -/
theorem dropWhile_head_false (p : Char → Bool) (l : GoStr) :
    l.dropWhile p = [] ∨
      ∃ a t, l.dropWhile p = a :: t ∧ p a = false := by
  induction l with
  | nil => exact Or.inl rfl
  | cons a t ih =>
    rw [List.dropWhile_cons]
    by_cases hpa : p a = true
    · simpa [hpa] using ih
    · exact Or.inr ⟨a, t, by simp [hpa], by simpa using hpa⟩

/-- After a left trim, right-trimming cannot re-expose leading space. -/
theorem dropWhile_trimRight (l : GoStr) :
    (trimRight (l.dropWhile isGoSpace)).dropWhile isGoSpace =
      trimRight (l.dropWhile isGoSpace) := by
  rcases dropWhile_head_false isGoSpace l with h | ⟨a, t, h, hpa⟩
  · rw [h]; rfl
  · rw [h]
    rcases trimRight_cons a t with h2 | h2
    · rw [h2]; rfl
    · rw [h2, List.dropWhile_cons, hpa]; simp

/-- Go's `strings.TrimSpace` is idempotent. -/
theorem trimSpace_idem (l : GoStr) : trimSpace (trimSpace l) = trimSpace l := by
  show trimRight ((trimRight (l.dropWhile isGoSpace)).dropWhile isGoSpace) =
    trimRight (l.dropWhile isGoSpace)
  rw [dropWhile_trimRight, trimRight_idem]

/-- Characters of the trimmed string come from the original. -/
theorem mem_trimSpace {x : Char} {l : GoStr} (h : x ∈ trimSpace l) : x ∈ l :=
  (List.dropWhile_sublist isGoSpace).mem (mem_trimRight h)

/-! ## Helper lemmas: splitting and joining -/

/-- The helper `consHead` never produces the empty field list. -/
theorem consHead_ne_nil (c : Char) (ls : List GoStr) : consHead c ls ≠ [] := by
  cases ls <;> simp [consHead]

/-- Go's `strings.Split` never returns an empty field list. -/
theorem splitOnComma_ne_nil : ∀ l : GoStr, splitOnComma l ≠ [] := by
  intro l
  cases l with
  | nil => simp [splitOnComma]
  | cons c rest =>
    rw [splitOnComma]
    by_cases hc : c = ','
    · simp [hc]
    · simpa [hc] using consHead_ne_nil c (splitOnComma rest)

/-- No field produced by splitting on commas contains a comma. -/
theorem comma_not_mem_splitOnComma :
    ∀ (l : GoStr) {t : GoStr}, t ∈ splitOnComma l → ',' ∉ t := by
  intro l
  induction l with
  | nil =>
    intro t ht
    simp only [splitOnComma, List.mem_singleton] at ht
    simp [ht]
  | cons c rest ih =>
    intro t ht
    rw [splitOnComma] at ht
    by_cases hc : c = ','
    · simp only [if_pos hc, List.mem_cons] at ht
      rcases ht with rfl | ht
      · simp
      · exact ih ht
    · rw [if_neg hc] at ht
      cases hsp : splitOnComma rest with
      | nil => exact absurd hsp (splitOnComma_ne_nil rest)
      | cons t₀ ts =>
        rw [hsp] at ht
        simp only [consHead, List.mem_cons] at ht
        rcases ht with rfl | ht
        · intro hmem
          rcases List.mem_cons.mp hmem with heq | hmem
          · exact hc heq.symm
          · exact ih (hsp ▸ List.mem_cons_self t₀ ts) hmem
        · exact ih (hsp ▸ List.mem_cons_of_mem t₀ ht)

/-- A comma-free string splits into a single field. -/
theorem splitOnComma_eq_single : ∀ {t : GoStr}, ',' ∉ t → splitOnComma t = [t] := by
  intro t
  induction t with
  | nil => intro _; rfl
  | cons a t' ih =>
    intro h
    have ha : ¬a = ',' := fun hh => h (hh ▸ List.mem_cons_self a t')
    have ht' : ',' ∉ t' := fun hh => h (List.mem_cons_of_mem a hh)
    rw [splitOnComma, if_neg ha, ih ht']
    rfl

/-- Splitting after a comma-free chunk peels off exactly that chunk. -/
theorem splitOnComma_append_comma :
    ∀ {t : GoStr}, ',' ∉ t → ∀ l : GoStr,
      splitOnComma (t ++ ',' :: l) = t :: splitOnComma l := by
  intro t
  induction t with
  | nil => intro _ l; simp [splitOnComma]
  | cons a t' ih =>
    intro h l
    have ha : ¬a = ',' := fun hh => h (hh ▸ List.mem_cons_self a t')
    have ht' : ',' ∉ t' := fun hh => h (List.mem_cons_of_mem a hh)
    rw [List.cons_append, splitOnComma, if_neg ha, ih ht' l]
    rfl

/-- Splitting undoes joining for nonempty lists of comma-free fields. -/
theorem splitOnComma_joinComma :
    ∀ {ts : List GoStr}, ts ≠ [] → (∀ t ∈ ts, ',' ∉ t) →
      splitOnComma (joinComma ts) = ts := by
  intro ts
  induction ts with
  | nil => intro h; exact absurd rfl h
  | cons t rest ih =>
    intro _ hall
    cases rest with
    | nil =>
      rw [joinComma]
      exact splitOnComma_eq_single (hall t (List.mem_cons_self t []))
    | cons t' rest' =>
      rw [joinComma,
        splitOnComma_append_comma (hall t (List.mem_cons_self t _)) _,
        ih (List.cons_ne_nil t' rest') (fun u hu => hall u (List.mem_cons_of_mem t hu))]

/-! ## Helper lemmas: the normalizer's token list -/

/-- Every token of the sorted, deduplicated tag list is non-empty,
trimmed, and comma-free. -/
theorem mem_sortTags_toTagSet {s t : GoStr}
    (h : t ∈ sortTags (toTagSet s)) :
    t ≠ [] ∧ trimSpace t = t ∧ ',' ∉ t := by
  have h1 : t ∈ toTagSet s := (List.mem_insertionSort _).mp h
  have h2 : t ∈ tagSetOf s := List.mem_dedup.mp h1
  have h3 := List.mem_filter.mp h2
  obtain ⟨u, hu, hut⟩ := List.mem_map.mp h3.1
  refine ⟨of_decide_eq_true h3.2, ?_, ?_⟩
  · rw [← hut]; exact trimSpace_idem u
  · intro hmem
    exact comma_not_mem_splitOnComma s hu (mem_trimSpace (hut ▸ hmem))

/-- The sorted tag list is sorted under `≤`. -/
theorem sortTags_sorted_le (ts : List GoStr) :
    (sortTags ts).Sorted (· ≤ ·) :=
  List.sorted_insertionSort _ ts

/-- The sorted, deduplicated tag list has no duplicates. -/
theorem sortTags_toTagSet_nodup (s : GoStr) :
    (sortTags (toTagSet s)).Nodup :=
  (List.perm_insertionSort _ _).nodup_iff.mpr (List.nodup_dedup _)

/-- The sorted, deduplicated tag list is strictly ascending. -/
theorem sortTags_toTagSet_sorted_lt (s : GoStr) :
    (sortTags (toTagSet s)).Sorted (· < ·) :=
  ((sortTags_sorted_le (toTagSet s)).and (sortTags_toTagSet_nodup s)).imp
    fun hab => lt_of_le_of_ne hab.1 hab.2

/-- The function `normalizeTags` always equals the comma-join of its sorted token
list; the `if`-guard on the empty string agrees with the join of the
empty token list. -/
theorem normalizeTags_eq_joinComma (s : GoStr) :
    normalizeTags s = joinComma (sortTags (toTagSet s)) := by
  by_cases hs : s = []
  · subst hs; decide
  · rw [normalizeTags, if_neg hs]

/-- Rebuilding the tag set from a normalized token list returns the same
token list. -/
theorem sortTags_toTagSet_joinComma {ts : List GoStr}
    (hne : ts ≠ [])
    (hnonempty : ∀ t ∈ ts, t ≠ [])
    (htrim : ∀ t ∈ ts, trimSpace t = t)
    (hcomma : ∀ t ∈ ts, ',' ∉ t)
    (hsorted : ts.Sorted (· ≤ ·))
    (hnodup : ts.Nodup) :
    sortTags (toTagSet (joinComma ts)) = ts := by
  have hsplit : splitOnComma (joinComma ts) = ts :=
    splitOnComma_joinComma hne hcomma
  have hmap : ts.map trimSpace = ts := by
    simpa using List.map_congr_left htrim
  have hfilter : ts.filter (fun t => decide (t ≠ [])) = ts :=
    List.filter_eq_self.mpr fun t ht => decide_eq_true (hnonempty t ht)
  rw [toTagSet, tagSetOf, hsplit, hmap, hfilter, List.dedup_eq_self.mpr hnodup]
  exact hsorted.insertionSort_eq

/-- The tag normalizer is idempotent. -/
theorem normalizeTags_idem (s : GoStr) :
    normalizeTags (normalizeTags s) = normalizeTags s := by
  rw [normalizeTags_eq_joinComma s]
  by_cases h0 : sortTags (toTagSet s) = []
  · rw [h0]; decide
  · by_cases hout : joinComma (sortTags (toTagSet s)) = []
    · rw [hout]; decide
    · rw [normalizeTags_eq_joinComma (joinComma (sortTags (toTagSet s)))]
      congr 1
      exact sortTags_toTagSet_joinComma h0
        (fun t ht => (mem_sortTags_toTagSet ht).1)
        (fun t ht => (mem_sortTags_toTagSet ht).2.1)
        (fun t ht => (mem_sortTags_toTagSet ht).2.2)
        (sortTags_sorted_le _)
        (sortTags_toTagSet_nodup s)

/-! ## Claim theorems -/

/-- C5: for every input string, the tag normalizer's output is the
comma-join of tokens that are non-empty, trimmed, strictly ascending in
lexicographic order (hence duplicate-free, with case-sensitive
comparison); an input consisting only of empty or whitespace tokens
(including the empty string) yields the empty string.  Totality holds by
construction: `normalizeTags` is a total Lean function. -/
theorem normalizeTags_normal_form (s : GoStr) :
    normalizeTags s = joinComma (sortTags (toTagSet s)) ∧
    (∀ t ∈ sortTags (toTagSet s), t ≠ [] ∧ trimSpace t = t) ∧
    (sortTags (toTagSet s)).Sorted (· < ·) ∧
    ((∀ t ∈ splitOnComma s, trimSpace t = []) → normalizeTags s = []) := by
  refine ⟨normalizeTags_eq_joinComma s,
    fun t ht => ⟨(mem_sortTags_toTagSet ht).1, (mem_sortTags_toTagSet ht).2.1⟩,
    sortTags_toTagSet_sorted_lt s, ?_⟩
  intro hws
  rw [normalizeTags_eq_joinComma s]
  have h1 : tagSetOf s = [] := by
    rw [tagSetOf, List.filter_eq_nil_iff]
    intro a ha
    obtain ⟨u, hu, rfl⟩ := List.mem_map.mp ha
    simp [hws u hu]
  rw [toTagSet, h1]
  rfl

/-- C5 witness: a filter of only whitespace tokens normalizes to the
empty string, at the concrete input " , ". -/
theorem normalizeTags_normal_form_witness :
    normalizeTags (gs " , ") = [] :=
  (normalizeTags_normal_form (gs " , ")).2.2.2 (by decide)

/-- C6: applying the tag normalizer twice gives the same result as
applying it once. -/
theorem normalizeTags_idempotent (s : GoStr) :
    normalizeTags (normalizeTags s) = normalizeTags s :=
  normalizeTags_idem s

/-- C2 counterexample: the content " " has trimmed length 0, yet
`App.AddPrompt` returns a validation error ("prompt content cannot be
empty"), not the no-op "Operation cancelled" success — the cancelled
no-op branch fires only on the exactly-empty editor result. -/
theorem add_blank_content_cex :
    trimSpace (gs " ") = [] ∧
    AppAddPrompt [] (gs "n") [] (gs " ") = (AddOutcome.validationError, []) ∧
    (AppAddPrompt [] (gs "n") [] (gs " ")).1 ≠ AddOutcome.cancelled := by
  decide

/-- C2 amended: for content whose trimmed length is 0 (and a name passing
validation), Add aborts as a no-op success exactly when the editor
returned the empty string, and fails with a validation error when the
content is whitespace-only but non-empty; Edit, against a stored record
with valid name and non-blank content, always fails with a validation
error on such content and performs no store update. -/
theorem add_edit_blank_content (st : List Prompt) (name tags content : GoStr)
    (hname : validatePromptName name = true)
    (hblank : trimSpace content = []) :
    (content = [] → AppAddPrompt st name tags content = (.cancelled, st)) ∧
    (content ≠ [] → AppAddPrompt st name tags content = (.validationError, st)) ∧
    (∀ ex : Prompt, validatePromptName ex.name = true → trimSpace ex.prompt ≠ [] →
      ∀ newTags, AppEditPrompt st ex content newTags = (.validationError, st)) := by
  have hval : validatePromptContent content = false := by
    simp [validatePromptContent, hblank, goLen]
  refine ⟨?_, ?_, ?_⟩
  · intro hc
    simp [AppAddPrompt, hname, hc]
  · intro hc
    simp [AppAddPrompt, hname, hc, hval]
  · intro ex hexname hexcontent newTags
    have hne : ¬(content = ex.prompt ∧ normalizeTags newTags = ex.tags) :=
      fun h => hexcontent (h.1 ▸ hblank)
    simp [AppEditPrompt, hexname, hne, hval]

/-- C2 amended, witness at content " ": Add errors, Edit errors. -/
theorem add_edit_blank_content_witness :
    AppAddPrompt [] (gs "n") [] (gs " ") = (AddOutcome.validationError, []) ∧
    AppEditPrompt [] ⟨1, gs "n", gs "x", []⟩ (gs " ") [] =
      (EditOutcome.validationError, []) := by
  have h := add_edit_blank_content [] (gs "n") [] (gs " ") (by decide) (by decide)
  exact ⟨h.2.1 (by decide), h.2.2 ⟨1, gs "n", gs "x", []⟩ (by decide) (by decide) []⟩

/-- C7: for every name longer than 255 characters (so also longer than
255 UTF-8 bytes, which is what Go's `len` checks), Add fails with a
validation error, and Edit of a stored record carrying that name fails
with a validation error. -/
theorem long_name_validation (st : List Prompt) (name tags content : GoStr)
    (hlong : 255 < name.length) :
    AppAddPrompt st name tags content = (.validationError, st) ∧
    ∀ (ex : Prompt) (newPrompt newTags : GoStr), ex.name = name →
      AppEditPrompt st ex newPrompt newTags = (.validationError, st) := by
  have hgl : 255 < goLen name := lt_of_lt_of_le hlong (length_le_goLen name)
  have hval : validatePromptName name = false := by
    by_cases h : name = [] <;> simp [validatePromptName, h, hgl, MaxPromptNameLen]
  constructor
  · simp [AppAddPrompt, hval]
  · intro ex newPrompt newTags hex
    simp [AppEditPrompt, hex, hval]

/-- C7 witness: a 256-character name is rejected by Add. -/
theorem long_name_validation_witness :
    AppAddPrompt [] (List.replicate 256 'a') [] (gs "x") =
      (AddOutcome.validationError, []) :=
  (long_name_validation [] (List.replicate 256 'a') [] (gs "x")
    (by rw [List.length_replicate]; omega)).1

/-- C8: when the new content equals the stored record's content and the
normalized new tags equal the stored record's tags (and the stored name
passes validation, as the data-model invariant guarantees),
`App.EditPrompt` reports "No changes detected" and succeeds without
touching the store. -/
theorem edit_no_changes (st : List Prompt) (ex : Prompt)
    (newPrompt newTags : GoStr)
    (hname : validatePromptName ex.name = true)
    (hp : newPrompt = ex.prompt)
    (ht : normalizeTags newTags = ex.tags) :
    AppEditPrompt st ex newPrompt newTags = (.noChanges, st) := by
  simp [AppEditPrompt, hname, hp, ht]

/-- C8 witness: editing "Hi" with tags "b,a" over a record holding "Hi"
with tags "a,b" is a no-op. -/
theorem edit_no_changes_witness :
    AppEditPrompt [⟨1, gs "n", gs "Hi", gs "a,b"⟩] ⟨1, gs "n", gs "Hi", gs "a,b"⟩
      (gs "Hi") (gs "b,a") =
      (EditOutcome.noChanges, [⟨1, gs "n", gs "Hi", gs "a,b"⟩]) :=
  edit_no_changes _ _ _ _ (by decide) (by decide) (by decide)

instance : IsTotal Prompt (fun p q => p.name ≤ q.name) :=
  ⟨fun a b => le_total a.name b.name⟩

instance : IsTrans Prompt (fun p q => p.name ≤ q.name) :=
  ⟨fun _ _ _ h₁ h₂ => le_trans h₁ h₂⟩

/-- C9: for every store state and every tag filter (including the empty
one used by the list, search, and export commands), `App.ListPrompts`
returns the records sorted ascending by name — the `ORDER BY name` of
`ListPrompts`, preserved by the in-memory tag filtering. -/
theorem listPrompts_sorted_by_name (st : List Prompt) (tagsFilter : GoStr) :
    (AppListPrompts st tagsFilter).Sorted (fun p q => p.name ≤ q.name) := by
  have hbase : (storeListPrompts st).Sorted (fun p q => p.name ≤ q.name) :=
    List.sorted_insertionSort _ st
  rw [AppListPrompts]
  split_ifs with h1
  · simp only [storeListPromptsByTags]
    split_ifs
    all_goals first
    | exact hbase
    | exact List.Pairwise.filter _ hbase
  · exact hbase

/-- C4 counterexample: importing the record (name "n", content " ",
tags "b,a") persists it verbatim — the tags stay unnormalized ("b,a",
not "a,b") and the whitespace-only content is stored, refuting the claim
that every write path persists only normalized tags and non-blank
content. -/
theorem import_unnormalized_cex :
    importPrompts [] [⟨1, gs "n", gs " ", gs "b,a"⟩] =
      [⟨1, gs "n", gs " ", gs "b,a"⟩] ∧
    normalizeTags (gs "b,a") ≠ gs "b,a" ∧
    trimSpace (gs " ") = [] := by
  decide

/-- C4 amended: the add and edit operations persist tags only in
normalized form and only content passing validation — every record in
the resulting store is either an untouched input record or carries
exactly the normalized input tags (a normalization fixed point) and
validated content.  The import path is exempt: it writes the file's
fields verbatim (see the counterexample). -/
theorem add_edit_persist_normalized (st : List Prompt)
    (name tags content : GoStr) (ex : Prompt) (newPrompt newTags : GoStr) :
    (∀ r ∈ (AppAddPrompt st name tags content).2, r ∈ st ∨
      (r.tags = normalizeTags tags ∧ normalizeTags r.tags = r.tags ∧
       validatePromptContent r.prompt = true)) ∧
    (∀ r ∈ (AppEditPrompt st ex newPrompt newTags).2, r ∈ st ∨
      (r.tags = normalizeTags newTags ∧ normalizeTags r.tags = r.tags ∧
       validatePromptContent r.prompt = true)) := by
  constructor
  · intro r hr
    rw [AppAddPrompt] at hr
    split_ifs at hr with h1 h2 h3
    · exact Or.inl hr
    · exact Or.inl hr
    · exact Or.inl hr
    · rw [storeAddPrompt] at hr
      split_ifs at hr with h4
      · exact Or.inl hr
      · simp only [List.mem_append, List.mem_singleton] at hr
        rcases hr with hr | rfl
        · exact Or.inl hr
        · refine Or.inr ⟨rfl, normalizeTags_idem tags, ?_⟩
          simpa using h3
  · intro r hr
    rw [AppEditPrompt] at hr
    by_cases h1 : validatePromptName ex.name = false
    · rw [if_pos h1] at hr
      exact Or.inl hr
    · rw [if_neg h1] at hr
      by_cases h2 : newPrompt = ex.prompt ∧ normalizeTags newTags = ex.tags
      · replace hr : r ∈ st := by rw [if_pos h2] at hr; exact hr
        exact Or.inl hr
      · rw [if_neg h2] at hr
        by_cases h3 : validatePromptContent newPrompt = false
        · rw [if_pos h3] at hr
          exact Or.inl hr
        · rw [if_neg h3] at hr
          cases hup : storeUpdatePrompt st ex.name newPrompt (normalizeTags newTags) with
          | none =>
            rw [hup] at hr
            exact Or.inl hr
          | some st' =>
            rw [hup] at hr
            replace hr : r ∈ st' := hr
            rw [storeUpdatePrompt] at hup
            by_cases h4 : ∃ p ∈ st, p.name = ex.name
            · rw [if_pos h4] at hup
              rw [← Option.some_inj.mp hup] at hr
              simp only [List.mem_map] at hr
              obtain ⟨p, hp, hpr⟩ := hr
              by_cases hname : p.name = ex.name
              · rw [if_pos hname] at hpr
                refine Or.inr ?_
                rw [← hpr]
                exact ⟨rfl, normalizeTags_idem newTags, by simpa using h3⟩
              · rw [if_neg hname] at hpr
                exact Or.inl (hpr ▸ hp)
            · rw [if_neg h4] at hup
              cases hup


/-- C4 amended, witness: adding content "hi" with raw tags "b,a" stores
the normalized tags "a,b". -/
theorem add_edit_persist_normalized_witness :
    (⟨1, gs "n", gs "hi", gs "a,b"⟩ : Prompt) ∈ ([] : List Prompt) ∨
      ((gs "a,b") = normalizeTags (gs "b,a") ∧
       normalizeTags (gs "a,b") = gs "a,b" ∧
       validatePromptContent (gs "hi") = true) :=
  (add_edit_persist_normalized [] (gs "n") (gs "b,a") (gs "hi")
      ⟨1, gs "n", gs "x", []⟩ (gs "y") []).1
    ⟨1, gs "n", gs "hi", gs "a,b"⟩ (by decide)

/-- Membership characterization for `ListPromptsByTags` when the parsed
filter tag list is nonempty: a record is returned iff it is listed and
its (trimmed, non-empty) tag tokens stand in the AND/OR relation to the
filter tokens. -/
theorem mem_listByTags (st : List Prompt) (f : GoStr)
    (hf0 : f ≠ []) (hne : tagSetOf (stripAnd f) ≠ []) (p : Prompt) :
    p ∈ storeListPromptsByTags st f ↔
      p ∈ storeListPrompts st ∧ p.tags ≠ [] ∧
        (if andMarked f then ∀ t ∈ tagSetOf (stripAnd f), t ∈ tagSetOf p.tags
         else ∃ t ∈ tagSetOf (stripAnd f), t ∈ tagSetOf p.tags) := by
  simp only [storeListPromptsByTags, if_neg hf0, if_neg hne, List.mem_filter]
  constructor
  · rintro ⟨hp, hpred⟩
    by_cases htags : p.tags = []
    · rw [if_pos htags] at hpred
      cases hpred
    · rw [if_neg htags] at hpred
      refine ⟨hp, htags, ?_⟩
      by_cases hmk : andMarked f
      · rw [if_pos hmk]
        rw [if_pos hmk] at hpred
        intro t ht
        have := (List.all_eq_true.mp hpred) t ht
        exact of_decide_eq_true this
      · rw [if_neg hmk]
        rw [if_neg hmk] at hpred
        obtain ⟨t, ht, htp⟩ := List.any_eq_true.mp hpred
        exact ⟨t, ht, of_decide_eq_true htp⟩
  · rintro ⟨hp, htags, hrel⟩
    refine ⟨hp, ?_⟩
    rw [if_neg htags]
    by_cases hmk : andMarked f
    · rw [if_pos hmk]
      rw [if_pos hmk] at hrel
      exact List.all_eq_true.mpr fun t ht => decide_eq_true (hrel t ht)
    · rw [if_neg hmk]
      rw [if_neg hmk] at hrel
      obtain ⟨t, ht, htp⟩ := hrel
      exact List.any_eq_true.mpr ⟨t, ht, decide_eq_true htp⟩

/-- The tag-set parser yields nothing on the empty string. -/
theorem tagSetOf_nil : tagSetOf [] = [] := by decide

/-- C3: with a nonempty parsed filter tag set, a record matches an
OR filter (no `AND:` marker) iff its tag set intersects the filter tag
set, matches an AND filter iff its tag set contains every filter tag,
and a record with an empty tag set never matches. -/
theorem listByTags_matching (st : List Prompt) (f : GoStr)
    (hne : tagSetOf (stripAnd f) ≠ []) :
    (andMarked f = false →
      ∀ p : Prompt, p ∈ storeListPromptsByTags st f ↔
        p ∈ storeListPrompts st ∧ ∃ t ∈ tagSetOf f, t ∈ tagSetOf p.tags) ∧
    (andMarked f = true →
      ∀ p : Prompt, p ∈ storeListPromptsByTags st f ↔
        p ∈ storeListPrompts st ∧ ∀ t ∈ tagSetOf (f.drop 4), t ∈ tagSetOf p.tags) ∧
    (∀ p : Prompt, tagSetOf p.tags = [] → p ∉ storeListPromptsByTags st f) := by
  have hf0 : f ≠ [] := by
    intro h
    apply hne
    rw [h]
    decide
  refine ⟨?_, ?_, ?_⟩
  · intro hmk p
    have hstrip : stripAnd f = f := by simp [stripAnd, hmk]
    rw [mem_listByTags st f hf0 hne p, if_neg (by simp [hmk]), hstrip]
    constructor
    · rintro ⟨hp, _, hrel⟩
      exact ⟨hp, hrel⟩
    · rintro ⟨hp, hrel⟩
      refine ⟨hp, ?_, hrel⟩
      obtain ⟨t, _, htp⟩ := hrel
      intro h0
      rw [h0, tagSetOf_nil] at htp
      cases htp
  · intro hmk p
    have hstrip : stripAnd f = f.drop 4 := by simp [stripAnd, hmk]
    rw [mem_listByTags st f hf0 hne p, if_pos (by simp [hmk]), hstrip]
    constructor
    · rintro ⟨hp, _, hrel⟩
      exact ⟨hp, hrel⟩
    · rintro ⟨hp, hrel⟩
      refine ⟨hp, ?_, hrel⟩
      obtain ⟨t, ht⟩ := List.exists_mem_of_ne_nil _ (hstrip ▸ hne)
      have htp := hrel t ht
      intro h0
      rw [h0, tagSetOf_nil] at htp
      cases htp
  · intro p h0 hmem
    rw [mem_listByTags st f hf0 hne p] at hmem
    obtain ⟨_, _, hrel⟩ := hmem
    by_cases hmk : andMarked f
    · rw [if_pos hmk] at hrel
      obtain ⟨t, ht⟩ := List.exists_mem_of_ne_nil _ hne
      have := hrel t ht
      rw [h0] at this
      cases this
    · rw [if_neg hmk] at hrel
      obtain ⟨t, _, htp⟩ := hrel
      rw [h0] at htp
      cases htp

/-- C3 witness: a record tagged "a,b" matches OR filter "b,c" but not
AND filter "AND:b,c"; a record tagged "a,b,c" matches AND filter
"AND:a,c". -/
theorem listByTags_matching_witness :
    ((⟨1, gs "r", gs "x", gs "a,b"⟩ : Prompt) ∈
      storeListPromptsByTags [⟨1, gs "r", gs "x", gs "a,b"⟩] (gs "b,c")) ∧
    ((⟨1, gs "r", gs "x", gs "a,b"⟩ : Prompt) ∉
      storeListPromptsByTags [⟨1, gs "r", gs "x", gs "a,b"⟩] (gs "AND:b,c")) ∧
    ((⟨1, gs "r", gs "x", gs "a,b,c"⟩ : Prompt) ∈
      storeListPromptsByTags [⟨1, gs "r", gs "x", gs "a,b,c"⟩] (gs "AND:a,c")) := by
  refine ⟨?_, ?_, ?_⟩
  · exact ((listByTags_matching [⟨1, gs "r", gs "x", gs "a,b"⟩] (gs "b,c")
      (by decide)).1 (by decide) _).mpr (by decide)
  · intro hmem
    have h := ((listByTags_matching [⟨1, gs "r", gs "x", gs "a,b"⟩] (gs "AND:b,c")
      (by decide)).2.1 (by decide) _).mp hmem
    revert h
    decide
  · exact ((listByTags_matching [⟨1, gs "r", gs "x", gs "a,b,c"⟩] (gs "AND:a,c")
      (by decide)).2.1 (by decide) _).mpr (by decide)

/-- Folding the textarea updates of a list of non-quit keys over a
buffer value. -/
def applyEdits (taUpd : Nat → String → String) (s : String)
    (ks : List EdKey) : String :=
  ks.foldl (fun acc k => match k with | EdKey.taKey n => taUpd n acc | _ => acc) s

/-- Running the editor loop over non-quit keys followed by a quit key:
the session ends at the quit key with the buffer obtained by applying the
edits, and the `quitting` flag set. -/
theorem runEditorKeys_edits_then_quit (taUpd : Nat → String → String) :
    ∀ (edits : List EdKey) (m : EditorModel) (q : EdKey) (rest : List EdKey),
      (∀ k ∈ edits, isQuitKey k = false) → isQuitKey q = true →
      runEditorKeys taUpd m (edits ++ q :: rest) =
        some ⟨applyEdits taUpd m.taValue edits, true⟩ := by
  intro edits
  induction edits with
  | nil =>
    intro m q rest _ hq
    cases q with
    | esc => simp [runEditorKeys, editorUpdate, applyEdits]
    | ctrlC => simp [runEditorKeys, editorUpdate, applyEdits]
    | ctrlD => simp [runEditorKeys, editorUpdate, applyEdits]
    | altEnter => simp [runEditorKeys, editorUpdate, applyEdits]
    | taKey n => simp [isQuitKey] at hq
  | cons k ks ih =>
    intro m q rest hall hq
    have hk : isQuitKey k = false := hall k (List.mem_cons_self k ks)
    cases k with
    | taKey n =>
      rw [List.cons_append, runEditorKeys]
      simp only [editorUpdate]
      rw [if_neg (by simp)]
      rw [ih _ q rest (fun u hu => hall u (List.mem_cons_of_mem (EdKey.taKey n) hu)) hq]
      rfl
    | esc => cases hk
    | ctrlC => cases hk
    | ctrlD => cases hk
    | altEnter => cases hk

/-- C10: for every initial content, every sequence of non-quit edit keys,
and every terminating key (Escape, Ctrl+C, Ctrl+D or Alt+Enter),
`RunTUIEditor` returns exactly the textarea buffer's value at the moment
the session ends — the edited initial content — independent of which
terminating key ended it; in particular a non-empty buffer ended by
Escape or Ctrl+C comes back as that non-empty text. -/
theorem tui_returns_buffer_any_quit_key (taUpd : Nat → String → String)
    (initialContent : String) (edits : List EdKey) (q : EdKey)
    (rest : List EdKey)
    (hedits : ∀ k ∈ edits, isQuitKey k = false)
    (hq : isQuitKey q = true) :
    runTUIEditor taUpd initialContent (edits ++ q :: rest) =
      some (applyEdits taUpd initialContent edits) := by
  rw [runTUIEditor,
    runEditorKeys_edits_then_quit taUpd edits (initialEditorModel initialContent)
      q rest hedits hq]
  rfl

/-- C10 witness: one forwarded key then Escape returns the edited
buffer. -/
theorem tui_returns_buffer_witness :
    runTUIEditor (fun _ s => s ++ "!") "ab" [EdKey.taKey 0, EdKey.esc] =
      some "ab!" := by
  have h := tui_returns_buffer_any_quit_key (fun _ s => s ++ "!") "ab"
    [EdKey.taKey 0] EdKey.esc [] (by decide) (by decide)
  simpa [applyEdits] using h

/-- C1 (the code, evaluated at the claim's inputs): with initial content
"hello" and no edits, Ctrl+D returns "hello" — but Escape returns the
very same `some "hello"`, not a distinct Cancelled result: the Go
function's return type `(string, error)` carries no cancellation signal,
although the editor's own help line advertises "Esc or Ctrl+C to
cancel". -/
theorem tui_escape_same_as_submit (taUpd : Nat → String → String) :
    runTUIEditor taUpd "hello" [EdKey.ctrlD] = some "hello" ∧
    runTUIEditor taUpd "hello" [EdKey.esc] = some "hello" ∧
    runTUIEditor taUpd "hello" [EdKey.esc] =
      runTUIEditor taUpd "hello" [EdKey.ctrlD] :=
  ⟨rfl, rfl, rfl⟩
